import Mathlib

/-!
Verification of the Agiotagem loan-portfolio manager.

Shallow embedding conventions, matching the TypeScript source:

* JS numbers that carry money or rates are modelled as `ℚ` (the concrete
  inputs used in the theorems below are exactly representable as binary
  doubles, so `ℚ` arithmetic agrees with the JS float arithmetic on them).
* Calendar dates (`dueDate`, `startDate`, the "today" midnight and the
  `lastUpdated` wall-clock stamp) are modelled as integers.  `dueDate` and
  `startDate` are day indices: after the source normalises both sides to
  local midnight, `Math.ceil((due - today) / 86400000)` is exactly the
  difference of day indices.
* Optional TS fields (`isDeleted?`, `lastUpdated?`, `observation?`) are
  `Option`s.  `id` is declared `string` in `types.ts`, but the import path
  (`processImportedData`) casts unvalidated JSON (`parsed as Client[]`),
  so at run time a record's `id` can be `undefined`; it is therefore
  modelled as `Option String`.
* A JS `Map` (string-or-undefined keys, insertion order preserved,
  `set` on an existing key updates the value in place) is modelled as an
  association list with `setEntry` / `getEntry`.
* JS `Math.round` (round half toward positive infinity) is exactly
  Mathlib's `round` on `ℚ`: `round x = ⌊x + 1/2⌋`.
* React state updates (`setClients(prev => ...)`) are modelled as pure
  functions from the previous client list to the next one; `Date.now()`
  is passed in as an explicit `now` parameter.
-/

/-- Lifecycle states of a loan, `types.ts` (`'Active' | 'Completed' | 'Late'`). -/
inductive Status where
  | Active
  | Completed
  | Late
deriving DecidableEq

/-- One scheduled payment, `types.ts` `Installment`.  `dueDate` is a day index. -/
structure Installment where
  number : ℤ
  dueDate : ℤ
  value : ℚ
  isPaid : Bool
deriving DecidableEq

/-- One loan record, `types.ts` `Client`.  See the header for the field
conventions (`id` as `Option String`, day-index dates, `Option` sync fields). -/
structure Client where
  id : Option String
  name : String
  phone : String
  principal : ℚ
  installments : ℕ
  interestRate : ℚ
  startDate : ℤ
  status : Status
  installmentsList : List Installment
  observation : Option String
  isDeleted : Option Bool
  lastUpdated : Option ℤ
deriving DecidableEq

/-- The ids of a client list, in order. -/
def ids (clients : List Client) : List (Option String) :=
  clients.map (fun c => c.id)

/-- First record with the given id, modelling a lookup keyed by `id`. -/
def findById (clients : List Client) (clientId : Option String) : Option Client :=
  clients.find? (fun c => decide (c.id = clientId))

/-- Status derivation from the recalculation block of `handleTogglePayment`
(part_000 lines 177-188): all paid gives `Completed`, otherwise an unpaid
installment strictly before `today` gives `Late`, otherwise `Active`.
The status-check effect (part_000 lines 86-108) applies the same `Late`
versus `Active` rule to non-`Completed` records. -/
def deriveStatus (installmentsList : List Installment) (today : ℤ) : Status :=
  if installmentsList.all (fun i => i.isPaid) then .Completed
  else if installmentsList.any (fun i => !i.isPaid && decide (i.dueDate < today)) then .Late
  else .Active

/-- Body of the installment map inside `handleTogglePayment`: the matching
number gets `isPaid` negated, every other installment is returned as is. -/
def toggleInstallment (installmentNumber : ℤ) (inst : Installment) : Installment :=
  if inst.number = installmentNumber then { inst with isPaid := !inst.isPaid } else inst

/-- Body of the client map inside `handleTogglePayment` (part_000 lines
164-197): a non-matching id is returned untouched; the matching client gets
the toggled installment list, a freshly derived status and
`lastUpdated := now` (`Date.now()` passed explicitly).  The source's
`if (!client.installmentsList) return client` guard is vacuous here because
the field is non-optional in `types.ts`. -/
def toggleClient (clientId : Option String) (installmentNumber : ℤ)
    (today now : ℤ) (client : Client) : Client :=
  if client.id ≠ clientId then client
  else
    let updatedInstallments := client.installmentsList.map (toggleInstallment installmentNumber)
    { client with
        installmentsList := updatedInstallments
        status := deriveStatus updatedInstallments today
        lastUpdated := some now }

/-- `handleTogglePayment` (part_000 lines 164-197): `setClients(prev =>
prev.map(...))` as a pure function of the previous list. -/
def handleTogglePayment (clients : List Client) (clientId : Option String)
    (installmentNumber : ℤ) (today now : ℤ) : List Client :=
  clients.map (toggleClient clientId installmentNumber today now)

section JsMap

variable {K V : Type} [DecidableEq K]

/-- JS `Map.set`: update the value in place when the key is already present
(keeping its insertion position), otherwise append a new entry. -/
def setEntry : List (K × V) → K → V → List (K × V)
  | [], k, v => [(k, v)]
  | p :: rest, k, v => if p.1 = k then (p.1, v) :: rest else p :: setEntry rest k v

/-- JS `Map.get`: the value stored under the key, if any. -/
def getEntry : List (K × V) → K → Option V
  | [], _ => none
  | p :: rest, k => if p.1 = k then some p.2 else getEntry rest k

end JsMap

/-- The merge path's normalisation of a local record
(`{ ...c, lastUpdated: c.lastUpdated || 0 }`, part_000 line 290): a missing
`lastUpdated` is replaced by 0, a present one is kept. -/
def normalizeTs (c : Client) : Client :=
  { c with lastUpdated := some (c.lastUpdated.getD 0) }

/-- Effective timestamp of a record (`c.lastUpdated || 0`):
missing means 0. -/
def tsOf (c : Client) : ℤ :=
  c.lastUpdated.getD 0

/-- `new Map(clients.map(c => [c.id, { ...c, lastUpdated: c.lastUpdated || 0 }]))`
(part_000 line 290): the map constructor runs `set` over the pairs in order. -/
def mapOfClients (clients : List Client) : List (Option String × Client) :=
  clients.foldl (fun m c => setEntry m c.id (normalizeTs c)) []

/-- Body of the `importedClients.forEach` loop (part_000 lines 295-313):
an id already in the map is overwritten only when the imported timestamp is
strictly greater; a new id is always inserted (the imported record is stored
raw in both cases). -/
def mergeStep (m : List (Option String × Client)) (importedClient : Client) :
    List (Option String × Client) :=
  match getEntry m importedClient.id with
  | some localClient =>
      if tsOf localClient < tsOf importedClient then
        setEntry m importedClient.id importedClient
      else m
  | none => setEntry m importedClient.id importedClient

/-- The map state after the whole `forEach` loop of the merge branch. -/
def mergeMap (clients importedClients : List Client) : List (Option String × Client) :=
  importedClients.foldl mergeStep (mapOfClients clients)

/-- The merge branch of `processImportedData` (part_000 lines 287-320):
`Array.from(currentMap.values())` in insertion order. -/
def mergeClients (clients importedClients : List Client) : List Client :=
  (mergeMap clients importedClients).map Prod.snd

/-- The two modes of `processImportedData`. -/
inductive SyncMode where
  | merge
  | replace
deriving DecidableEq

/-- Outcome of `JSON.parse` on the pasted payload followed by the
`Array.isArray` check (part_000 lines 276-278): `malformed` is a thrown
parse error, `nonArray` a well-formed value that is not an array, and
`records` a parsed array.  The source casts the array unchecked
(`parsed as Client[]`), so an entry lacking `id` shows up as a record whose
`id` is `none`; no per-entry validation is represented because none exists. -/
inductive ImportPayload where
  | malformed
  | nonArray
  | records (importedClients : List Client)
deriving DecidableEq

/-- `processImportedData` (part_000 lines 274-328) as a function from the
previous client state to the next one.  `confirmReplace` is the result of the
`window.confirm` guard of the replace branch; the malformed and non-array
branches only raise an alert and leave the state untouched. -/
def processImportedData (payload : ImportPayload) (mode : SyncMode)
    (confirmReplace : Bool) (clients : List Client) : List Client :=
  match payload with
  | .malformed => clients
  | .nonArray => clients
  | .records importedClients =>
      match mode with
      | .replace => if confirmReplace then importedClients else clients
      | .merge => mergeClients clients importedClients

/-- Alert severity of the notifications memo, `App.tsx` lines 307-330. -/
inductive Severity where
  | overdue
  | due
deriving DecidableEq

/-- One pushed alert of the notifications memo, `App.tsx` lines 307-330. -/
structure Alert where
  clientName : String
  installment : ℤ
  value : ℚ
  days : ℤ
  status : Severity
deriving DecidableEq

/-- The warning window hard-coded in the notification logic: an unpaid
installment is alerted while `diffDays <= 1` (`App.tsx` line 323). -/
def warningDays : ℤ := 1

/-- `activeClients` (`App.tsx` lines 231-233): drop soft-deleted records
(`!c.isDeleted`, so `none` counts as live) and sort by `startDate`
descending; the JS comparator sort is stable, hence `mergeSort`. -/
def activeClients (clients : List Client) : List Client :=
  (clients.filter (fun c => !(c.isDeleted.getD false))).mergeSort
    (fun a b => decide (b.startDate ≤ a.startDate))

/-- Alerts contributed by one installment in the notifications memo
(`App.tsx` lines 314-327): nothing when paid; with
`diffDays = dueDate - today`, an `overdue` alert when `diffDays < 0`, a
`due` alert when `diffDays <= 1`, nothing otherwise. -/
def installmentAlerts (client : Client) (today : ℤ) (inst : Installment) : List Alert :=
  if inst.isPaid then []
  else
    let diffDays := inst.dueDate - today
    if diffDays < 0 then
      [⟨client.name, inst.number, inst.value, diffDays, .overdue⟩]
    else if diffDays ≤ warningDays then
      [⟨client.name, inst.number, inst.value, diffDays, .due⟩]
    else []

/-- The notifications memo (`App.tsx` lines 307-330): scan the active
clients and each installment list in order, pushing alerts. -/
def notifications (clients : List Client) (today : ℤ) : List Alert :=
  (activeClients clients).flatMap
    (fun client => client.installmentsList.flatMap (installmentAlerts client today))

/-- One chart point, `types.ts` `ProgressionPoint`. -/
structure ProgressionPoint where
  name : String
  principal : ℤ
  interest : ℤ
  total : ℤ
deriving DecidableEq

/-- `monthlyPrincipalReturn` accumulated over the clients for period `i`
(`constants.ts` lines 51-60): each client with `i <= installments`
contributes `principal / installments`. -/
def perPeriodPrincipal (clients : List Client) (i : ℕ) : ℚ :=
  clients.foldl
    (fun acc client =>
      if i ≤ client.installments then acc + client.principal / (client.installments : ℚ)
      else acc)
    0

/-- `monthlyInterestReturn` accumulated over the clients for period `i`
(`constants.ts` lines 51-60): each contributing client adds
`monthlyPayment - principalPart` with
`monthlyPayment = principal * (1 + interestRate / 100) / installments`. -/
def perPeriodInterest (clients : List Client) (i : ℕ) : ℚ :=
  clients.foldl
    (fun acc client =>
      if i ≤ client.installments then
        acc + (client.principal * (1 + client.interestRate / 100) / (client.installments : ℚ)
               - client.principal / (client.installments : ℚ))
      else acc)
    0

/-- `Math.max(...clients.map(c => c.installments), 0) || 6`
(`constants.ts` line 43): the largest installment count, or 6 when that
maximum is 0 (in particular for an empty portfolio). -/
def horizon (clients : List Client) : ℕ :=
  let maxInstallments := (clients.map (fun c => c.installments)).foldr max 0
  if maxInstallments = 0 then 6 else maxInstallments

/-- The point pushed for period `i` (`constants.ts` lines 62-71): the
previous *emitted* (already rounded) values are read back from the end of
`data` and the per-period contributions are added before rounding again. -/
def nextPoint (clients : List Client) (data : List ProgressionPoint) (i : ℕ) :
    ProgressionPoint :=
  let monthlyPrincipalReturn := perPeriodPrincipal clients i
  let monthlyInterestReturn := perPeriodInterest clients i
  let prevPrincipal : ℤ := match data.getLast? with | some p => p.principal | none => 0
  let prevInterest : ℤ := match data.getLast? with | some p => p.interest | none => 0
  { name := "Mês " ++ toString i
    principal := round ((prevPrincipal : ℚ) + monthlyPrincipalReturn)
    interest := round ((prevInterest : ℚ) + monthlyInterestReturn)
    total := round ((prevPrincipal : ℚ) + monthlyPrincipalReturn
                    + (prevInterest : ℚ) + monthlyInterestReturn) }

/-- State of `data` after the first `n` iterations of the
`for (let i = 1; i <= maxInstallments; i++)` loop of `calculateProgression`:
iteration `i = n` pushes `nextPoint clients data n`. -/
def progressionLoop (clients : List Client) : ℕ → List ProgressionPoint
  | 0 => []
  | n + 1 =>
      let data := progressionLoop clients n
      data ++ [nextPoint clients data (n + 1)]

/-- `calculateProgression` (`constants.ts` lines 41-75). -/
def calculateProgression (clients : List Client) : List ProgressionPoint :=
  progressionLoop clients (horizon clients)

/-- Modelled from the spec: the unrounded sum of the per-period principal
contributions for periods `1..n` ("the emitted cumulative values equal the
unrounded sum of per-period contributions for periods 1 through i, rounded
once at output").  Used only to compare the source's accumulation, which
feeds rounded outputs back into the running totals, against this spec-side
formula. -/
def unroundedCumulativePrincipal (clients : List Client) (n : ℕ) : ℚ :=
  (List.range n).foldl (fun acc k => acc + perPeriodPrincipal clients (k + 1)) 0


section JsMapLemmas

variable {K V : Type} [DecidableEq K]

theorem getEntry_setEntry_self (m : List (K × V)) (k : K) (v : V) :
    getEntry (setEntry m k v) k = some v := by
  induction m with
  | nil => simp [setEntry, getEntry]
  | cons p rest ih =>
      by_cases h : p.1 = k
      · simp [setEntry, getEntry, h]
      · simp [setEntry, getEntry, h, ih]

theorem getEntry_setEntry_ne (m : List (K × V)) {k k2 : K} (v : V) (h : k2 ≠ k) :
    getEntry (setEntry m k v) k2 = getEntry m k2 := by
  have hk : ¬ k = k2 := fun hh => h hh.symm
  induction m with
  | nil => simp [setEntry, getEntry, hk]
  | cons p rest ih =>
      by_cases hp : p.1 = k
      · simp [setEntry, getEntry, hp, hk]
      · by_cases hq : p.1 = k2
        · simp [setEntry, getEntry, hp, hq, h]
        · simp [setEntry, getEntry, hp, hq, ih]

theorem mem_of_getEntry_eq_some {m : List (K × V)} {k : K} {v : V}
    (h : getEntry m k = some v) : (k, v) ∈ m := by
  induction m with
  | nil => simp [getEntry] at h
  | cons p rest ih =>
      obtain ⟨k1, v1⟩ := p
      by_cases hp : k1 = k
      · rw [show getEntry ((k1, v1) :: rest) k
              = if k1 = k then some v1 else getEntry rest k from rfl,
            if_pos hp] at h
        have hv : v1 = v := Option.some.inj h
        exact List.mem_cons.mpr (Or.inl (by rw [hp, hv]))
      · rw [show getEntry ((k1, v1) :: rest) k
              = if k1 = k then some v1 else getEntry rest k from rfl,
            if_neg hp] at h
        exact List.mem_cons_of_mem _ (ih h)

theorem getEntry_eq_some_of_mem {m : List (K × V)}
    (hnd : (m.map Prod.fst).Nodup) {p : K × V} (hp : p ∈ m) :
    getEntry m p.1 = some p.2 := by
  induction m with
  | nil => simp at hp
  | cons q rest ih =>
      simp only [List.map_cons, List.nodup_cons] at hnd
      rcases List.mem_cons.mp hp with h | h
      · subst h
        simp [getEntry]
      · have hne : ¬ q.1 = p.1 := by
          intro hh
          exact hnd.1 (hh ▸ List.mem_map_of_mem Prod.fst h)
        rw [show getEntry (q :: rest) p.1
              = if q.1 = p.1 then some q.2 else getEntry rest p.1 from rfl,
            if_neg hne]
        exact ih hnd.2 h

theorem keys_setEntry (m : List (K × V)) (k : K) (v : V) :
    (setEntry m k v).map Prod.fst =
      if k ∈ m.map Prod.fst then m.map Prod.fst else m.map Prod.fst ++ [k] := by
  induction m with
  | nil => simp [setEntry]
  | cons p rest ih =>
      by_cases hp : p.1 = k
      · simp [setEntry, hp]
      · have hk : ¬ k = p.1 := fun hh => hp hh.symm
        by_cases hmem : k ∈ rest.map Prod.fst
        · simp [setEntry, hp, ih, hmem, hk]
        · simp [setEntry, hp, ih, hmem, hk]

theorem nodup_keys_setEntry (m : List (K × V)) (k : K) (v : V)
    (h : (m.map Prod.fst).Nodup) : ((setEntry m k v).map Prod.fst).Nodup := by
  rw [keys_setEntry]
  by_cases hk : k ∈ m.map Prod.fst
  · simpa [hk]
  · rw [if_neg hk, List.nodup_append]
    exact ⟨h, List.nodup_singleton k, by simpa [List.disjoint_singleton] using hk⟩

theorem setEntry_of_not_mem (m : List (K × V)) (k : K) (v : V)
    (h : k ∉ m.map Prod.fst) : setEntry m k v = m ++ [(k, v)] := by
  induction m with
  | nil => simp [setEntry]
  | cons p rest ih =>
      simp only [List.map_cons, List.mem_cons] at h
      push_neg at h
      have hp : ¬ p.1 = k := fun hh => h.1 hh.symm
      simp [setEntry, hp, ih h.2]

theorem forall_setEntry {P : K × V → Prop} (m : List (K × V)) (k : K) (v : V)
    (h : ∀ p ∈ m, P p) (hkv : P (k, v)) : ∀ p ∈ setEntry m k v, P p := by
  induction m with
  | nil =>
      intro p hp
      simp only [setEntry, List.mem_singleton] at hp
      exact hp ▸ hkv
  | cons q rest ih =>
      intro p hp
      by_cases hq : q.1 = k
      · rw [show setEntry (q :: rest) k v
              = if q.1 = k then (q.1, v) :: rest else q :: setEntry rest k v from rfl,
            if_pos hq] at hp
        rcases List.mem_cons.mp hp with hh | hh
        · subst hh
          exact hq ▸ hkv
        · exact h p (List.mem_cons_of_mem _ hh)
      · rw [show setEntry (q :: rest) k v
              = if q.1 = k then (q.1, v) :: rest else q :: setEntry rest k v from rfl,
            if_neg hq] at hp
        rcases List.mem_cons.mp hp with hh | hh
        · subst hh
          exact h p (List.mem_cons_self _ _)
        · exact ih (fun r hr => h r (List.mem_cons_of_mem _ hr)) p hh

end JsMapLemmas

theorem findById_eq_none {clients : List Client} {k : Option String} :
    findById clients k = none ↔ k ∉ ids clients := by
  rw [findById, List.find?_eq_none]
  constructor
  · intro h hmem
    obtain ⟨c, hc, hcid⟩ := List.mem_map.mp hmem
    exact absurd (decide_eq_true (by rw [hcid])) (h c hc)
  · intro h c hc hdc
    exact h (List.mem_map.mpr ⟨c, hc, of_decide_eq_true hdc⟩)

theorem findById_id {clients : List Client} {k : Option String} {c : Client}
    (h : findById clients k = some c) : c.id = k := by
  rw [findById] at h
  simpa using List.find?_some h

theorem findById_mem {clients : List Client} {k : Option String} {c : Client}
    (h : findById clients k = some c) : c ∈ clients :=
  List.mem_of_find?_eq_some h

theorem findById_of_mem {clients : List Client} (hnd : (ids clients).Nodup)
    {c : Client} (hc : c ∈ clients) : findById clients c.id = some c := by
  induction clients with
  | nil => simp at hc
  | cons d rest ih =>
      simp only [ids, List.map_cons, List.nodup_cons] at hnd
      rcases List.mem_cons.mp hc with h | h
      · subst h
        rw [findById, List.find?_cons_of_pos _ (by simp)]
      · have hne : (decide (d.id = c.id)) = false := by
          simp only [decide_eq_false_iff_not]
          intro hh
          exact hnd.1 (hh ▸ List.mem_map_of_mem (fun x => x.id) h)
        rw [findById, List.find?_cons_of_neg _ (by simp_all), ← findById]
        exact ih hnd.2 h

theorem findById_cons_ne {d : Client} {rest : List Client} {k : Option String}
    (h : d.id ≠ k) : findById (d :: rest) k = findById rest k := by
  rw [findById, List.find?_cons_of_neg _ (by simpa), ← findById]

theorem tsOf_normalizeTs (c : Client) : tsOf (normalizeTs c) = tsOf c := by
  simp [tsOf, normalizeTs]

theorem normalizeTs_id (c : Client) : (normalizeTs c).id = c.id := rfl

theorem normalizeTs_of_isSome {c : Client} (h : c.lastUpdated.isSome) :
    normalizeTs c = c := by
  obtain ⟨t, ht⟩ := Option.isSome_iff_exists.mp h
  cases c
  simp only [normalizeTs] at *
  simp_all

theorem isSome_lastUpdated_normalizeTs (c : Client) :
    (normalizeTs c).lastUpdated.isSome := rfl

theorem isSome_of_tsOf_pos {c : Client} (h : 0 < tsOf c) : c.lastUpdated.isSome := by
  cases hc : c.lastUpdated with
  | none => simp [tsOf, hc] at h
  | some t => simp

theorem foldl_set_lookup (l : List Client) (m : List (Option String × Client))
    (h : (ids l).Nodup) (k : Option String) :
    getEntry (l.foldl (fun m c => setEntry m c.id (normalizeTs c)) m) k =
      match findById l k with
      | some c => some (normalizeTs c)
      | none => getEntry m k := by
  induction l generalizing m with
  | nil => simp [findById]
  | cons c rest ih =>
      simp only [ids, List.map_cons, List.nodup_cons] at h
      by_cases hk : c.id = k
      · have hrest : findById rest k = none :=
          findById_eq_none.mpr (fun hmem => h.1 (hk ▸ hmem))
        rw [List.foldl_cons, ih _ h.2, hrest]
        rw [findById, List.find?_cons_of_pos _ (by simpa), hk]
        exact getEntry_setEntry_self m k (normalizeTs c)
      · rw [List.foldl_cons, ih _ h.2, findById_cons_ne hk]
        cases hfind : findById rest k with
        | some d => rfl
        | none => exact getEntry_setEntry_ne m _ (fun hh => hk hh.symm)

theorem mapOfClients_lookup (l : List Client) (h : (ids l).Nodup) (k : Option String) :
    getEntry (mapOfClients l) k = (findById l k).map normalizeTs := by
  rw [mapOfClients, foldl_set_lookup l [] h k]
  cases hfind : findById l k with
  | some c => rfl
  | none => rfl

theorem mergeStep_lookup_ne (m : List (Option String × Client)) (ic : Client)
    {k : Option String} (h : k ≠ ic.id) :
    getEntry (mergeStep m ic) k = getEntry m k := by
  cases hget : getEntry m ic.id with
  | none =>
      rw [mergeStep, hget]
      exact getEntry_setEntry_ne m _ h
  | some lc =>
      rw [mergeStep, hget]
      show getEntry (if tsOf lc < tsOf ic then setEntry m ic.id ic else m) k = getEntry m k
      by_cases hts : tsOf lc < tsOf ic
      · rw [if_pos hts]
        exact getEntry_setEntry_ne m _ h
      · rw [if_neg hts]

theorem mergeStep_lookup_self (m : List (Option String × Client)) (ic : Client) :
    getEntry (mergeStep m ic) ic.id =
      match getEntry m ic.id with
      | none => some ic
      | some lc => if tsOf lc < tsOf ic then some ic else some lc := by
  cases hget : getEntry m ic.id with
  | none =>
      rw [mergeStep, hget]
      exact getEntry_setEntry_self m _ ic
  | some lc =>
      rw [mergeStep, hget]
      show getEntry (if tsOf lc < tsOf ic then setEntry m ic.id ic else m) ic.id
            = if tsOf lc < tsOf ic then some ic else some lc
      by_cases hts : tsOf lc < tsOf ic
      · rw [if_pos hts, if_pos hts]
        exact getEntry_setEntry_self m _ ic
      · rw [if_neg hts, if_neg hts]
        exact hget

theorem foldl_mergeStep_lookup (inc : List Client) (m : List (Option String × Client))
    (h : (ids inc).Nodup) (k : Option String) :
    getEntry (inc.foldl mergeStep m) k =
      match findById inc k with
      | none => getEntry m k
      | some ic =>
          match getEntry m k with
          | none => some ic
          | some lc => if tsOf lc < tsOf ic then some ic else some lc := by
  induction inc generalizing m with
  | nil => simp [findById]
  | cons ic0 rest ih =>
      simp only [ids, List.map_cons, List.nodup_cons] at h
      by_cases hk : ic0.id = k
      · have hrest : findById rest k = none :=
          findById_eq_none.mpr (fun hmem => h.1 (hk ▸ hmem))
        rw [List.foldl_cons, ih _ h.2, hrest]
        rw [findById, List.find?_cons_of_pos _ (by simpa)]
        subst hk
        exact mergeStep_lookup_self m ic0
      · rw [List.foldl_cons, ih _ h.2, findById_cons_ne hk]
        have hne : k ≠ ic0.id := fun hh => hk hh.symm
        cases hfind : findById rest k with
        | some d => rw [mergeStep_lookup_ne m ic0 hne]
        | none => exact mergeStep_lookup_ne m ic0 hne

/-- Outcome of the per-id last-write-wins decision of the merge branch:
`lc` is the competing local copy, `ic` the competing imported copy. -/
def lwwPick (lc ic : Option Client) : Option Client :=
  match lc, ic with
  | none, none => none
  | some lc, none => some (normalizeTs lc)
  | none, some ic => some ic
  | some lc, some ic => if tsOf lc < tsOf ic then some ic else some (normalizeTs lc)

theorem mergeMap_lookup (clients importedClients : List Client)
    (hl : (ids clients).Nodup) (hi : (ids importedClients).Nodup) (k : Option String) :
    getEntry (mergeMap clients importedClients) k =
      lwwPick (findById clients k) (findById importedClients k) := by
  rw [mergeMap, foldl_mergeStep_lookup _ _ hi, mapOfClients_lookup _ hl]
  cases hfl : findById clients k with
  | none =>
      cases hfi : findById importedClients k with
      | none => rfl
      | some ic => rfl
  | some lc =>
      cases hfi : findById importedClients k with
      | none => rfl
      | some ic =>
          show (if tsOf (normalizeTs lc) < tsOf ic then some ic else some (normalizeTs lc))
                = lwwPick (some lc) (some ic)
          rw [lwwPick, tsOf_normalizeTs]

theorem foldl_invariant {α β : Type} {P : β → Prop} (f : β → α → β)
    (h : ∀ b a, P b → P (f b a)) (l : List α) (b : β) (hb : P b) : P (l.foldl f b) := by
  induction l generalizing b with
  | nil => exact hb
  | cons a rest ih => exact ih _ (h b a hb)

theorem keyed_mapOfClients (clients : List Client) :
    ∀ p ∈ mapOfClients clients, p.2.id = p.1 := by
  rw [mapOfClients]
  exact @foldl_invariant Client (List (Option String × Client))
    (fun m => ∀ p ∈ m, p.2.id = p.1)
    (fun m c => setEntry m c.id (normalizeTs c))
    (fun m c hm => forall_setEntry m c.id (normalizeTs c) hm (normalizeTs_id c))
    clients []
    (fun p hp => absurd hp (List.not_mem_nil p))

theorem keyed_mergeStep (m : List (Option String × Client)) (ic : Client)
    (hm : ∀ p ∈ m, p.2.id = p.1) : ∀ p ∈ mergeStep m ic, p.2.id = p.1 := by
  cases hget : getEntry m ic.id with
  | none =>
      rw [mergeStep, hget]
      exact forall_setEntry m ic.id ic hm rfl
  | some lc =>
      rw [mergeStep, hget]
      show ∀ p ∈ (if tsOf lc < tsOf ic then setEntry m ic.id ic else m), p.2.id = p.1
      by_cases hts : tsOf lc < tsOf ic
      · rw [if_pos hts]
        exact forall_setEntry m ic.id ic hm rfl
      · rwa [if_neg hts]

theorem keyed_mergeMap (clients importedClients : List Client) :
    ∀ p ∈ mergeMap clients importedClients, p.2.id = p.1 := by
  rw [mergeMap]
  exact foldl_invariant mergeStep (fun m c hm => keyed_mergeStep m c hm)
    importedClients _ (keyed_mapOfClients clients)

theorem nodup_keys_mergeStep (m : List (Option String × Client)) (ic : Client)
    (hm : (m.map Prod.fst).Nodup) : ((mergeStep m ic).map Prod.fst).Nodup := by
  cases hget : getEntry m ic.id with
  | none =>
      rw [mergeStep, hget]
      exact nodup_keys_setEntry m ic.id ic hm
  | some lc =>
      rw [mergeStep, hget]
      show ((if tsOf lc < tsOf ic then setEntry m ic.id ic else m).map Prod.fst).Nodup
      by_cases hts : tsOf lc < tsOf ic
      · rw [if_pos hts]
        exact nodup_keys_setEntry m ic.id ic hm
      · rwa [if_neg hts]

theorem nodup_keys_mapOfClients (clients : List Client) :
    ((mapOfClients clients).map Prod.fst).Nodup := by
  rw [mapOfClients]
  exact foldl_invariant _ (fun m c hm => nodup_keys_setEntry m c.id (normalizeTs c) hm)
    clients [] (by simp)

theorem nodup_keys_mergeMap (clients importedClients : List Client) :
    ((mergeMap clients importedClients).map Prod.fst).Nodup := by
  rw [mergeMap]
  exact foldl_invariant mergeStep (fun m c hm => nodup_keys_mergeStep m c hm)
    importedClients _ (nodup_keys_mapOfClients clients)

theorem mem_mergeClients_iff {clients importedClients : List Client} {c : Client} :
    c ∈ mergeClients clients importedClients ↔
      getEntry (mergeMap clients importedClients) c.id = some c := by
  constructor
  · intro h
    obtain ⟨p, hp, hpc⟩ := List.mem_map.mp h
    have hkey := keyed_mergeMap clients importedClients p hp
    have hlook := getEntry_eq_some_of_mem (nodup_keys_mergeMap clients importedClients) hp
    subst hpc
    rw [hkey]
    exact hlook
  · intro h
    exact List.mem_map.mpr ⟨(c.id, c), mem_of_getEntry_eq_some h, rfl⟩

theorem findById_map_snd {m : List (Option String × Client)}
    (hnd : (m.map Prod.fst).Nodup) (hkeyed : ∀ p ∈ m, p.2.id = p.1) (k : Option String) :
    findById (m.map Prod.snd) k = getEntry m k := by
  induction m with
  | nil => simp [findById, getEntry]
  | cons p rest ih =>
      simp only [List.map_cons, List.nodup_cons] at hnd
      have hpid : p.2.id = p.1 := hkeyed p (List.mem_cons_self _ _)
      by_cases hk : p.1 = k
      · rw [List.map_cons, findById, List.find?_cons_of_pos _ (by simp [hpid, hk])]
        rw [show getEntry (p :: rest) k = if p.1 = k then some p.2 else getEntry rest k from rfl,
          if_pos hk]
      · rw [List.map_cons, findById,
          List.find?_cons_of_neg _ (by simp [hpid, hk]), ← findById,
          show getEntry (p :: rest) k = if p.1 = k then some p.2 else getEntry rest k from rfl,
          if_neg hk]
        exact ih hnd.2 (fun q hq => hkeyed q (List.mem_cons_of_mem _ hq))

theorem findById_mergeClients (clients importedClients : List Client) (k : Option String) :
    findById (mergeClients clients importedClients) k
      = getEntry (mergeMap clients importedClients) k := by
  rw [mergeClients]
  exact findById_map_snd (nodup_keys_mergeMap clients importedClients)
    (keyed_mergeMap clients importedClients) k

theorem ids_mergeClients (clients importedClients : List Client) :
    ids (mergeClients clients importedClients)
      = (mergeMap clients importedClients).map Prod.fst := by
  rw [mergeClients, ids, List.map_map]
  exact List.map_congr_left (fun p hp => keyed_mergeMap clients importedClients p hp)

theorem nodup_ids_mergeClients (clients importedClients : List Client) :
    (ids (mergeClients clients importedClients)).Nodup := by
  rw [ids_mergeClients]
  exact nodup_keys_mergeMap clients importedClients

theorem foldl_mergeStep_fixed {B : List Client} {m : List (Option String × Client)}
    (h : ∀ b ∈ B, mergeStep m b = m) : B.foldl mergeStep m = m := by
  induction B with
  | nil => rfl
  | cons b rest ih =>
      rw [List.foldl_cons, h b (List.mem_cons_self _ _)]
      exact ih (fun x hx => h x (List.mem_cons_of_mem _ hx))

theorem foldl_set_disjoint (l : List Client) (m : List (Option String × Client))
    (hd : ∀ c ∈ l, c.id ∉ m.map Prod.fst) (h : (ids l).Nodup) :
    l.foldl (fun m c => setEntry m c.id (normalizeTs c)) m
      = m ++ l.map (fun c => (c.id, normalizeTs c)) := by
  induction l generalizing m with
  | nil => simp
  | cons c rest ih =>
      simp only [ids, List.map_cons, List.nodup_cons] at h
      rw [List.foldl_cons, setEntry_of_not_mem m c.id _ (hd c (List.mem_cons_self _ _))]
      have hdisj : ∀ d ∈ rest, d.id ∉ (m ++ [(c.id, normalizeTs c)]).map Prod.fst := by
        intro d hd2
        rw [List.map_append]
        simp only [List.mem_append, List.map_cons, List.map_nil, List.mem_singleton]
        rintro (hmem | hmem)
        · exact hd d (List.mem_cons_of_mem _ hd2) hmem
        · exact h.1 (hmem ▸ List.mem_map_of_mem (fun x => x.id) hd2)
      rw [ih (m ++ [(c.id, normalizeTs c)]) hdisj h.2]
      simp

theorem mapOfClients_eq_map {l : List Client} (h : (ids l).Nodup) :
    mapOfClients l = l.map (fun c => (c.id, normalizeTs c)) := by
  rw [mapOfClients, foldl_set_disjoint l [] (by simp) h]
  simp

theorem mem_mergeClients_isSome {A B : List Client} (hA : (ids A).Nodup)
    (hB : (ids B).Nodup) (hts : ∀ b ∈ B, b.lastUpdated.isSome) :
    ∀ c ∈ mergeClients A B, c.lastUpdated.isSome := by
  intro c hc
  have h := mem_mergeClients_iff.mp hc
  rw [mergeMap_lookup A B hA hB] at h
  cases hfa : findById A c.id with
  | none =>
      cases hfb : findById B c.id with
      | none => simp [hfa, hfb, lwwPick] at h
      | some ic =>
          rw [hfa, hfb] at h
          simp only [lwwPick] at h
          have : ic = c := Option.some.inj h
          exact this ▸ hts ic (findById_mem hfb)
  | some lc =>
      cases hfb : findById B c.id with
      | none =>
          rw [hfa, hfb] at h
          simp only [lwwPick] at h
          have : normalizeTs lc = c := Option.some.inj h
          exact this ▸ isSome_lastUpdated_normalizeTs lc
      | some ic =>
          rw [hfa, hfb] at h
          simp only [lwwPick] at h
          by_cases hlt : tsOf lc < tsOf ic
          · rw [if_pos hlt] at h
            have : ic = c := Option.some.inj h
            exact this ▸ hts ic (findById_mem hfb)
          · rw [if_neg hlt] at h
            have : normalizeTs lc = c := Option.some.inj h
            exact this ▸ isSome_lastUpdated_normalizeTs lc

theorem tsOf_findById_merge_ge {A B : List Client} (hA : (ids A).Nodup)
    (hB : (ids B).Nodup) {b : Client} (hb : b ∈ B) {r : Client}
    (hr : findById (mergeClients A B) b.id = some r) : tsOf b ≤ tsOf r := by
  rw [findById_mergeClients, mergeMap_lookup A B hA hB,
    findById_of_mem hB hb] at hr
  cases hfa : findById A b.id with
  | none =>
      rw [hfa] at hr
      simp only [lwwPick] at hr
      exact (Option.some.inj hr) ▸ le_refl _
  | some lc =>
      rw [hfa] at hr
      simp only [lwwPick] at hr
      by_cases hlt : tsOf lc < tsOf b
      · rw [if_pos hlt] at hr
        exact (Option.some.inj hr) ▸ le_refl _
      · rw [if_neg hlt] at hr
        rw [← Option.some.inj hr, tsOf_normalizeTs]
        exact le_of_not_lt hlt

theorem mergeStep_fixed_of_ge {m : List (Option String × Client)} {b lc : Client}
    (hget : getEntry m b.id = some lc) (h : ¬ tsOf lc < tsOf b) : mergeStep m b = m := by
  rw [mergeStep, hget]
  show (if tsOf lc < tsOf b then setEntry m b.id b else m) = m
  rw [if_neg h]

theorem findById_merge_of_mem_right {A B : List Client} (hA : (ids A).Nodup)
    (hB : (ids B).Nodup) {b : Client} (hb : b ∈ B) :
    ∃ r, findById (mergeClients A B) b.id = some r := by
  rw [findById_mergeClients, mergeMap_lookup A B hA hB, findById_of_mem hB hb]
  cases hfa : findById A b.id with
  | none => exact ⟨b, by simp [lwwPick]⟩
  | some lc =>
      simp only [lwwPick]
      by_cases hlt : tsOf lc < tsOf b
      · rw [if_pos hlt]
        exact ⟨b, rfl⟩
      · rw [if_neg hlt]
        exact ⟨normalizeTs lc, rfl⟩

theorem merge_remerge (A B : List Client) (hA : (ids A).Nodup) (hB : (ids B).Nodup) :
    mergeClients (mergeClients A B) B = (mergeClients A B).map normalizeTs := by
  have hMnd : (ids (mergeClients A B)).Nodup := nodup_ids_mergeClients A B
  have hfix : ∀ b ∈ B, mergeStep (mapOfClients (mergeClients A B)) b
      = mapOfClients (mergeClients A B) := by
    intro b hb
    obtain ⟨r, hr⟩ := findById_merge_of_mem_right hA hB hb
    have hge := tsOf_findById_merge_ge hA hB hb hr
    have hget : getEntry (mapOfClients (mergeClients A B)) b.id = some (normalizeTs r) := by
      rw [mapOfClients_lookup _ hMnd, hr]
      rfl
    refine mergeStep_fixed_of_ge hget ?_
    rw [tsOf_normalizeTs]
    exact not_lt.mpr hge
  show (mergeMap (mergeClients A B) B).map Prod.snd = _
  rw [mergeMap, foldl_mergeStep_fixed hfix, mapOfClients_eq_map hMnd, List.map_map]
  rfl

theorem map_normalize_eq_self {l : List Client} (h : ∀ c ∈ l, c.lastUpdated.isSome) :
    l.map normalizeTs = l := by
  have : l.map normalizeTs = l.map id :=
    List.map_congr_left (fun c hc => normalizeTs_of_isSome (h c hc))
  rw [this, List.map_id]

/-- Record constructor used by the concrete inputs of the witnesses and
counterexamples below: financial fields are fixed integer-valued literals,
only the sync-relevant fields vary. -/
def mkClient (i : Option String) (nm : String) (ts : Option ℤ) (del : Option Bool) : Client :=
  { id := i
    name := nm
    phone := ""
    principal := 100
    installments := 1
    interestRate := 20
    startDate := 0
    status := .Active
    installmentsList := []
    observation := none
    isDeleted := del
    lastUpdated := ts }

/-- C1.  Amended per-id description of merge mode: an id only in the incoming
set is added (the incoming record stored as is); an id only in the local set
is kept, but with a missing `lastUpdated` replaced by 0 (`normalizeTs`), not
literally unchanged; for an id in both sets the incoming copy wins exactly
when its `lastUpdated` (defaulting to 0) is strictly greater, and otherwise
the local copy is kept, again with a missing `lastUpdated` replaced by 0. -/
theorem c1_merge_per_id (clients importedClients : List Client)
    (hl : (ids clients).Nodup) (hi : (ids importedClients).Nodup) :
    (∀ ic ∈ importedClients, ic.id ∉ ids clients →
        findById (mergeClients clients importedClients) ic.id = some ic)
    ∧ (∀ lc ∈ clients, lc.id ∉ ids importedClients →
        findById (mergeClients clients importedClients) lc.id = some (normalizeTs lc))
    ∧ (∀ lc ∈ clients, ∀ ic ∈ importedClients, lc.id = ic.id →
        findById (mergeClients clients importedClients) ic.id
          = if tsOf lc < tsOf ic then some ic else some (normalizeTs lc)) := by
  refine ⟨?_, ?_, ?_⟩
  · intro ic hic hnot
    rw [findById_mergeClients, mergeMap_lookup _ _ hl hi,
      findById_eq_none.mpr hnot, findById_of_mem hi hic]
    rfl
  · intro lc hlc hnot
    rw [findById_mergeClients, mergeMap_lookup _ _ hl hi,
      findById_of_mem hl hlc, findById_eq_none.mpr hnot]
    rfl
  · intro lc hlc ic hic heq
    have h1 : findById clients ic.id = some lc := heq ▸ findById_of_mem hl hlc
    rw [findById_mergeClients, mergeMap_lookup _ _ hl hi, h1, findById_of_mem hi hic]
    rfl

/-- C1, witness: a concrete tie (equal timestamps, same id) keeps the local
copy, by the third clause of `c1_merge_per_id`. -/
theorem c1_witness :
    findById
        (mergeClients [mkClient (some ("a")) ("Alice") (some 5) (some false)]
          [mkClient (some ("a")) ("AliceMobile") (some 5) (some false)])
        (some ("a"))
      = some (mkClient (some ("a")) ("Alice") (some 5) (some false)) := by
  have h := (c1_merge_per_id
      [mkClient (some ("a")) ("Alice") (some 5) (some false)]
      [mkClient (some ("a")) ("AliceMobile") (some 5) (some false)]
      (by decide) (by decide)).2.2
      (mkClient (some ("a")) ("Alice") (some 5) (some false)) (by decide)
      (mkClient (some ("a")) ("AliceMobile") (some 5) (some false)) (by decide)
      (by decide)
  rw [if_neg (by decide)] at h
  exact h.trans (by decide)

/-- C1, counterexample to the claim as stated: a record whose id appears only
in the local set is *not* kept unchanged when its `lastUpdated` is missing —
the merge stores it with `lastUpdated` backfilled to 0. -/
theorem c1_counterexample :
    mergeClients [mkClient (some ("a")) ("Alice") none (some false)] []
        = [{ mkClient (some ("a")) ("Alice") none (some false) with lastUpdated := some 0 }]
      ∧ ({ mkClient (some ("a")) ("Alice") none (some false) with lastUpdated := some 0 } : Client)
          ≠ mkClient (some ("a")) ("Alice") none (some false) := by
  constructor
  · rfl
  · decide

/-- C2.  Merge commutativity under accurate timestamps: when every record of
both sets carries a `lastUpdated` and equal timestamps on a shared id imply
equal records (accuracy), `merge(A,B)` and `merge(B,A)` are equal as record
sets (same members). -/
theorem c2_merge_comm (A B : List Client) (hA : (ids A).Nodup) (hB : (ids B).Nodup)
    (hAs : ∀ a ∈ A, a.lastUpdated.isSome) (hBs : ∀ b ∈ B, b.lastUpdated.isSome)
    (hacc : ∀ a ∈ A, ∀ b ∈ B, a.id = b.id → a.lastUpdated = b.lastUpdated → a = b) :
    ∀ c : Client, c ∈ mergeClients A B ↔ c ∈ mergeClients B A := by
  have key : ∀ k, getEntry (mergeMap A B) k = getEntry (mergeMap B A) k := by
    intro k
    rw [mergeMap_lookup A B hA hB, mergeMap_lookup B A hB hA]
    cases hfa : findById A k with
    | none =>
        cases hfb : findById B k with
        | none => rfl
        | some b =>
            simp only [lwwPick]
            rw [normalizeTs_of_isSome (hBs b (findById_mem hfb))]
    | some a =>
        cases hfb : findById B k with
        | none =>
            simp only [lwwPick]
            rw [normalizeTs_of_isSome (hAs a (findById_mem hfa))]
        | some b =>
            simp only [lwwPick]
            rw [normalizeTs_of_isSome (hAs a (findById_mem hfa)),
              normalizeTs_of_isSome (hBs b (findById_mem hfb))]
            rcases lt_trichotomy (tsOf a) (tsOf b) with hlt | heq | hgt
            · rw [if_pos hlt, if_neg (not_lt.mpr (le_of_lt hlt))]
            · have hts : a.lastUpdated = b.lastUpdated := by
                obtain ⟨ta, hta⟩ := Option.isSome_iff_exists.mp (hAs a (findById_mem hfa))
                obtain ⟨tb, htb⟩ := Option.isSome_iff_exists.mp (hBs b (findById_mem hfb))
                rw [tsOf, tsOf, hta, htb] at heq
                simp only [Option.getD_some] at heq
                rw [hta, htb, heq]
              have hab : a = b := hacc a (findById_mem hfa) b (findById_mem hfb)
                ((findById_id hfa).trans (findById_id hfb).symm) hts
              subst hab
              rfl
            · rw [if_neg (not_lt.mpr (le_of_lt hgt)), if_pos hgt]
  intro c
  rw [mem_mergeClients_iff, mem_mergeClients_iff, key c.id]

/-- C2, witness: two singleton sets with distinct ids and real timestamps
merge to the same record set in either order; instantiated from
`c2_merge_comm` at the record of the first set. -/
theorem c2_witness :
    mkClient (some ("a")) ("Alice") (some 5) (some false)
        ∈ mergeClients [mkClient (some ("a")) ("Alice") (some 5) (some false)]
            [mkClient (some ("b")) ("Bob") (some 7) (some false)]
      ↔ mkClient (some ("a")) ("Alice") (some 5) (some false)
          ∈ mergeClients [mkClient (some ("b")) ("Bob") (some 7) (some false)]
              [mkClient (some ("a")) ("Alice") (some 5) (some false)] :=
  c2_merge_comm
    [mkClient (some ("a")) ("Alice") (some 5) (some false)]
    [mkClient (some ("b")) ("Bob") (some 7) (some false)]
    (by decide) (by decide) (by decide) (by decide) (by decide)
    (mkClient (some ("a")) ("Alice") (some 5) (some false))

/-- C3.  Amended merge idempotence: re-merging the same incoming set is a
no-op provided every incoming record carries a `lastUpdated`; without that
hypothesis a fresh incoming record stored raw on the first merge gets its
missing timestamp backfilled to 0 on the second, so the claim's unconditional
equality fails (see the counterexample). -/
theorem c3_merge_idem (A B : List Client) (hA : (ids A).Nodup) (hB : (ids B).Nodup)
    (hts : ∀ b ∈ B, b.lastUpdated.isSome) :
    mergeClients (mergeClients A B) B = mergeClients A B := by
  rw [merge_remerge A B hA hB]
  exact map_normalize_eq_self (mem_mergeClients_isSome hA hB hts)

/-- C3, witness: concrete instance of `c3_merge_idem` with a real timestamp
on the incoming record. -/
theorem c3_witness :
    mergeClients
        (mergeClients [mkClient (some ("a")) ("Alice") (some 5) (some false)]
          [mkClient (some ("b")) ("Bob") (some 7) (some false)])
        [mkClient (some ("b")) ("Bob") (some 7) (some false)]
      = mergeClients [mkClient (some ("a")) ("Alice") (some 5) (some false)]
          [mkClient (some ("b")) ("Bob") (some 7) (some false)] :=
  c3_merge_idem
    [mkClient (some ("a")) ("Alice") (some 5) (some false)]
    [mkClient (some ("b")) ("Bob") (some 7) (some false)]
    (by decide) (by decide) (by decide)

/-- C3, counterexample to the claim as stated: with an incoming record that
lacks `lastUpdated`, the first merge stores it raw and the second merge
backfills the timestamp to 0, so merging twice differs from merging once. -/
theorem c3_counterexample :
    mergeClients (mergeClients [] [mkClient (some ("a")) ("Alice") none (some false)])
        [mkClient (some ("a")) ("Alice") none (some false)]
      ≠ mergeClients [] [mkClient (some ("a")) ("Alice") none (some false)] := by
  decide

/-- C4.  Tombstone propagation: if the local set holds a live copy of id `x`
and the incoming set holds a tombstoned copy with a strictly greater
timestamp, every record of the merge result carrying id `x` is tombstoned —
in fact the result's record at `x` is exactly the incoming tombstone,
whatever the local copy's other fields are. -/
theorem c4_tombstone (clients importedClients : List Client)
    (hl : (ids clients).Nodup) (hi : (ids importedClients).Nodup)
    (x : Option String) (lrec irec : Client)
    (hlrec : lrec ∈ clients) (hlid : lrec.id = x)
    (_hlive : lrec.isDeleted.getD false = false)
    (hirec : irec ∈ importedClients) (hiid : irec.id = x)
    (htomb : irec.isDeleted = some true)
    (hnewer : tsOf lrec < tsOf irec) :
    (∀ c ∈ mergeClients clients importedClients, c.id = x → c.isDeleted = some true)
    ∧ findById (mergeClients clients importedClients) x = some irec := by
  have h1 : findById clients x = some lrec := hlid ▸ findById_of_mem hl hlrec
  have h2 : findById importedClients x = some irec := hiid ▸ findById_of_mem hi hirec
  have hfind : findById (mergeClients clients importedClients) x = some irec := by
    rw [findById_mergeClients, mergeMap_lookup _ _ hl hi, h1, h2]
    simp only [lwwPick]
    rw [if_pos hnewer]
  refine ⟨?_, hfind⟩
  intro c hc hcid
  have hc2 : findById (mergeClients clients importedClients) c.id = some c := by
    rw [findById_mergeClients]
    exact mem_mergeClients_iff.mp hc
  rw [hcid] at hc2
  have : c = irec := Option.some.inj (hc2.symm.trans hfind)
  rw [this, htomb]

/-- C4, witness: a live local record loses to a newer incoming tombstone. -/
theorem c4_witness :
    (∀ c ∈ mergeClients [mkClient (some ("a")) ("Alice") (some 5) (some false)]
        [mkClient (some ("a")) ("Alice") (some 9) (some true)],
      c.id = some ("a") → c.isDeleted = some true)
    ∧ findById
        (mergeClients [mkClient (some ("a")) ("Alice") (some 5) (some false)]
          [mkClient (some ("a")) ("Alice") (some 9) (some true)])
        (some ("a"))
      = some (mkClient (some ("a")) ("Alice") (some 9) (some true)) :=
  c4_tombstone
    [mkClient (some ("a")) ("Alice") (some 5) (some false)]
    [mkClient (some ("a")) ("Alice") (some 9) (some true)]
    (by decide) (by decide)
    (some ("a"))
    (mkClient (some ("a")) ("Alice") (some 5) (some false))
    (mkClient (some ("a")) ("Alice") (some 9) (some true))
    (by decide) (by decide) (by decide) (by decide) (by decide) (by decide)
    (by decide)

/-- C5.  A record missing `lastUpdated` is treated as timestamp 0 on both
sides of the merge: between two competing copies of the same id where
exactly one carries a real (positive) timestamp, the copy missing the
timestamp loses — the result's record at that id is the timestamped copy. -/
theorem c5_missing_ts (clients importedClients : List Client)
    (hl : (ids clients).Nodup) (hi : (ids importedClients).Nodup)
    (lrec irec : Client) (hlrec : lrec ∈ clients) (hirec : irec ∈ importedClients)
    (hid : lrec.id = irec.id) :
    (∀ t : ℤ, 0 < t → lrec.lastUpdated = none → irec.lastUpdated = some t →
        findById (mergeClients clients importedClients) irec.id = some irec)
    ∧ (∀ t : ℤ, 0 < t → lrec.lastUpdated = some t → irec.lastUpdated = none →
        findById (mergeClients clients importedClients) irec.id = some lrec) := by
  have h1 : findById clients irec.id = some lrec := hid ▸ findById_of_mem hl hlrec
  have h2 : findById importedClients irec.id = some irec := findById_of_mem hi hirec
  constructor
  · intro t ht hnone hsome
    rw [findById_mergeClients, mergeMap_lookup _ _ hl hi, h1, h2]
    simp only [lwwPick]
    have hlt : tsOf lrec < tsOf irec := by
      rw [tsOf, tsOf, hnone, hsome]
      simpa using ht
    rw [if_pos hlt]
  · intro t ht hsome hnone
    rw [findById_mergeClients, mergeMap_lookup _ _ hl hi, h1, h2]
    simp only [lwwPick]
    have hnlt : ¬ tsOf lrec < tsOf irec := by
      rw [tsOf, tsOf, hsome, hnone]
      simp
      omega
    rw [if_neg hnlt, normalizeTs_of_isSome (by rw [hsome]; rfl)]

/-- C5, witness: the local copy misses its timestamp and loses to an
incoming copy stamped 9. -/
theorem c5_witness :
    findById
        (mergeClients [mkClient (some ("a")) ("Alice") none (some false)]
          [mkClient (some ("a")) ("AliceMobile") (some 9) (some false)])
        (some ("a"))
      = some (mkClient (some ("a")) ("AliceMobile") (some 9) (some false)) :=
  (c5_missing_ts
    [mkClient (some ("a")) ("Alice") none (some false)]
    [mkClient (some ("a")) ("AliceMobile") (some 9) (some false)]
    (by decide) (by decide)
    (mkClient (some ("a")) ("Alice") none (some false))
    (mkClient (some ("a")) ("AliceMobile") (some 9) (some false))
    (by decide) (by decide) (by decide)).1
    9 (by decide) (by decide) (by decide)

/-- C6.  Status derivation: `Completed` when every installment is paid (even
with past due dates), else `Late` when some unpaid installment is strictly
before today, else `Active`; and the derivation is deterministic (a pure
function of the list and "today"). -/
theorem c6_derive_status (installmentsList : List Installment) (today : ℤ) :
    ((∀ i ∈ installmentsList, i.isPaid = true) →
        deriveStatus installmentsList today = .Completed)
    ∧ ((∃ i ∈ installmentsList, i.isPaid = false) →
        (∃ i ∈ installmentsList, i.isPaid = false ∧ i.dueDate < today) →
        deriveStatus installmentsList today = .Late)
    ∧ ((∃ i ∈ installmentsList, i.isPaid = false) →
        (∀ i ∈ installmentsList, i.isPaid = false → ¬ i.dueDate < today) →
        deriveStatus installmentsList today = .Active)
    ∧ deriveStatus installmentsList today = deriveStatus installmentsList today := by
  refine ⟨?_, ?_, ?_, rfl⟩
  · intro h
    rw [deriveStatus, if_pos (List.all_eq_true.mpr h)]
  · rintro ⟨u, hu, hup⟩ ⟨i, hi, hip, hid⟩
    have hnall : ¬ installmentsList.all (fun i => i.isPaid) = true := by
      rw [List.all_eq_true]
      intro hall
      have := hall u hu
      rw [hup] at this
      exact Bool.false_ne_true this
    rw [deriveStatus, if_neg hnall,
      if_pos (List.any_eq_true.mpr ⟨i, hi, by simp [hip, hid]⟩)]
  · rintro ⟨u, hu, hup⟩ hnone
    have hnall : ¬ installmentsList.all (fun i => i.isPaid) = true := by
      rw [List.all_eq_true]
      intro hall
      have := hall u hu
      rw [hup] at this
      exact Bool.false_ne_true this
    have hnany : ¬ installmentsList.any
        (fun i => !i.isPaid && decide (i.dueDate < today)) = true := by
      rw [List.any_eq_true]
      rintro ⟨i, hi, hp⟩
      simp only [Bool.and_eq_true, Bool.not_eq_true', decide_eq_true_eq] at hp
      exact hnone i hi hp.1 hp.2
    rw [deriveStatus, if_neg hnall, if_neg hnany]

/-- C6, witness: a single-installment loan, paid but with a past due date,
derives `Completed` at today = 0. -/
theorem c6_witness :
    deriveStatus [⟨1, -3, 50, true⟩] 0 = .Completed :=
  (c6_derive_status [⟨1, -3, 50, true⟩] 0).1 (by decide)

/-- C9.  Amended decode/import policy: a payload that fails `JSON.parse` or
whose top level is not an array is rejected with the stored set left fully
unchanged, in either mode; but entries lacking an `id` are *not* rejected —
a parsed array is applied wholesale, so in merge mode the result is exactly
the merge of the current set with all entries, id-less ones included. -/
theorem c9_import_rejection (clients importedEntries : List Client)
    (mode : SyncMode) (confirmReplace : Bool) :
    processImportedData .malformed mode confirmReplace clients = clients
    ∧ processImportedData .nonArray mode confirmReplace clients = clients
    ∧ processImportedData (.records importedEntries) .merge confirmReplace clients
        = mergeClients clients importedEntries :=
  ⟨rfl, rfl, rfl⟩

/-- C9, counterexample to the claim as stated: an array payload with one
entry lacking `id` is not rejected — merging it into an empty store applies
the entry, changing the stored set. -/
theorem c9_counterexample :
    processImportedData (.records [mkClient none ("NoId") (some 3) (some false)])
        .merge true []
      = [mkClient none ("NoId") (some 3) (some false)]
    ∧ processImportedData (.records [mkClient none ("NoId") (some 3) (some false)])
        .merge true [] ≠ [] := by
  constructor
  · rfl
  · decide

theorem mem_activeClients {clients : List Client} {c : Client} (hc : c ∈ clients)
    (hlive : c.isDeleted.getD false = false) : c ∈ activeClients clients := by
  rw [activeClients, List.mem_mergeSort]
  exact List.mem_filter.mpr ⟨hc, by simp [hlive]⟩

/-- C7.  Notification boundaries, with the warning window `warningDays = 1`
hard-coded by the source: for a non-deleted record and an unpaid installment,
one due exactly today yields a `due` alert with `daysUntilDue = 0`, one due a
day before today yields an `overdue` alert with `daysUntilDue = -1`, and one
due `warningDays + 1` days after today contributes no alert at all. -/
theorem c7_notification_boundaries (clients : List Client) (today : ℤ)
    (c : Client) (inst : Installment) (hc : c ∈ clients)
    (hlive : c.isDeleted.getD false = false)
    (hinst : inst ∈ c.installmentsList) (hunpaid : inst.isPaid = false) :
    (inst.dueDate = today →
        Alert.mk c.name inst.number inst.value 0 .due ∈ notifications clients today)
    ∧ (inst.dueDate = today - 1 →
        Alert.mk c.name inst.number inst.value (-1) .overdue ∈ notifications clients today)
    ∧ (inst.dueDate = today + warningDays + 1 → installmentAlerts c today inst = []) := by
  refine ⟨?_, ?_, ?_⟩
  · intro hdue
    rw [notifications]
    refine List.mem_flatMap.mpr ⟨c, mem_activeClients hc hlive, ?_⟩
    refine List.mem_flatMap.mpr ⟨inst, hinst, ?_⟩
    have hd : inst.dueDate - today = 0 := by omega
    rw [installmentAlerts, if_neg (by simp [hunpaid])]
    simp only [hd, warningDays]
    norm_num
  · intro hdue
    rw [notifications]
    refine List.mem_flatMap.mpr ⟨c, mem_activeClients hc hlive, ?_⟩
    refine List.mem_flatMap.mpr ⟨inst, hinst, ?_⟩
    have hd : inst.dueDate - today = -1 := by omega
    rw [installmentAlerts, if_neg (by simp [hunpaid])]
    simp only [hd]
    norm_num
  · intro hdue
    have hw : warningDays = 1 := rfl
    rw [hw] at hdue
    have hd : inst.dueDate - today = 2 := by omega
    rw [installmentAlerts, if_neg (by simp [hunpaid])]
    simp only [hd, warningDays]
    norm_num

/-- Fixture for the notification and toggle witnesses: one live record with
three unpaid installments due on days 10, 9 and 12. -/
def notifClient : Client :=
  { mkClient (some ("n")) ("Nina") (some 1) (some false) with
      installmentsList := [⟨1, 10, 50, false⟩, ⟨2, 9, 50, false⟩, ⟨3, 12, 50, false⟩] }

/-- C7, witness: at today = 10 the installment due 10 raises a `due` alert
with 0 days, the one due 9 an `overdue` alert with -1 days, and the one due
12 (= today + warningDays + 1) contributes nothing. -/
theorem c7_witness :
    Alert.mk ("Nina") 1 50 0 .due ∈ notifications [notifClient] 10
    ∧ Alert.mk ("Nina") 2 50 (-1) .overdue ∈ notifications [notifClient] 10
    ∧ installmentAlerts notifClient 10 ⟨3, 12, 50, false⟩ = [] := by
  refine ⟨?_, ?_, ?_⟩
  · exact (c7_notification_boundaries [notifClient] 10 notifClient ⟨1, 10, 50, false⟩
      (by decide) (by decide) (by decide) (by decide)).1 (by decide)
  · exact (c7_notification_boundaries [notifClient] 10 notifClient ⟨2, 9, 50, false⟩
      (by decide) (by decide) (by decide) (by decide)).2.1 (by decide)
  · exact (c7_notification_boundaries [notifClient] 10 notifClient ⟨3, 12, 50, false⟩
      (by decide) (by decide) (by decide) (by decide)).2.2 (by decide)

theorem toggleClient_of_ne {clientId : Option String} {installmentNumber : ℤ}
    {today now : ℤ} {c : Client} (h : c.id ≠ clientId) :
    toggleClient clientId installmentNumber today now c = c := by
  rw [toggleClient, if_pos h]

theorem toggleClient_of_eq {clientId : Option String} {installmentNumber : ℤ}
    {today now : ℤ} {c : Client} (h : c.id = clientId) :
    toggleClient clientId installmentNumber today now c
      = { c with
            installmentsList := c.installmentsList.map (toggleInstallment installmentNumber)
            status := deriveStatus
              (c.installmentsList.map (toggleInstallment installmentNumber)) today
            lastUpdated := some now } := by
  rw [toggleClient, if_neg (not_not_intro h)]

theorem toggleInstallment_of_ne {installmentNumber : ℤ} {a : Installment}
    (h : a.number ≠ installmentNumber) : toggleInstallment installmentNumber a = a := by
  rw [toggleInstallment, if_neg h]

theorem toggleInstallment_of_eq {installmentNumber : ℤ} {a : Installment}
    (h : a.number = installmentNumber) :
    toggleInstallment installmentNumber a = { a with isPaid := !a.isPaid } := by
  rw [toggleInstallment, if_pos h]

theorem toggleInstallment_isPaid_twice (installmentNumber : ℤ) (a : Installment) :
    (toggleInstallment installmentNumber (toggleInstallment installmentNumber a)).isPaid
      = a.isPaid := by
  by_cases h : a.number = installmentNumber
  · simp [toggleInstallment, h]
  · simp [toggleInstallment, h]

/-- C10.  Frame property of payment toggling: the list length is preserved;
a client whose id differs is returned untouched; for the matching client
every installment with a different number is untouched and the matching
installment has exactly `isPaid` negated (status and `lastUpdated` of the
matching client are recomputed); and toggling the same pair twice restores
every installment's `isPaid` flag in the whole set. -/
theorem c10_toggle_frame (clients : List Client) (clientId : Option String)
    (installmentNumber : ℤ) (today now : ℤ) :
    (handleTogglePayment clients clientId installmentNumber today now).length
        = clients.length
    ∧ (∀ (i : ℕ) (c c2 : Client), clients[i]? = some c →
        (handleTogglePayment clients clientId installmentNumber today now)[i]? = some c2 →
        (c.id ≠ clientId → c2 = c)
        ∧ (c.id = clientId →
            c2.installmentsList.length = c.installmentsList.length
            ∧ ∀ (j : ℕ) (a b : Installment), c.installmentsList[j]? = some a →
                c2.installmentsList[j]? = some b →
                (a.number ≠ installmentNumber → b = a)
                ∧ (a.number = installmentNumber → b = { a with isPaid := !a.isPaid })))
    ∧ (∀ (i : ℕ) (c c3 : Client), clients[i]? = some c →
        (handleTogglePayment
            (handleTogglePayment clients clientId installmentNumber today now)
            clientId installmentNumber today now)[i]? = some c3 →
        ∀ (j : ℕ) (a b : Installment), c.installmentsList[j]? = some a →
            c3.installmentsList[j]? = some b → b.isPaid = a.isPaid) := by
  refine ⟨List.length_map _ _, ?_, ?_⟩
  · intro i c c2 hci hci2
    rw [handleTogglePayment, List.getElem?_map, hci, Option.map_some'] at hci2
    have hc2 : c2 = toggleClient clientId installmentNumber today now c :=
      (Option.some.inj hci2).symm
    constructor
    · intro hne
      rw [hc2, toggleClient_of_ne hne]
    · intro heq
      rw [hc2, toggleClient_of_eq heq]
      refine ⟨List.length_map _ _, ?_⟩
      intro j a b hja hjb
      rw [List.getElem?_map, hja, Option.map_some'] at hjb
      have hb : b = toggleInstallment installmentNumber a := (Option.some.inj hjb).symm
      constructor
      · intro hne
        rw [hb, toggleInstallment_of_ne hne]
      · intro hne
        rw [hb, toggleInstallment_of_eq hne]
  · intro i c c3 hci hci3
    rw [handleTogglePayment, handleTogglePayment, List.getElem?_map, List.getElem?_map,
      hci, Option.map_some', Option.map_some'] at hci3
    have hc3 : c3 = toggleClient clientId installmentNumber today now
        (toggleClient clientId installmentNumber today now c) :=
      (Option.some.inj hci3).symm
    intro j a b hja hjb
    by_cases hid : c.id = clientId
    · rw [toggleClient_of_eq hid] at hc3
      have hid2 : ({ c with
            installmentsList := c.installmentsList.map (toggleInstallment installmentNumber)
            status := deriveStatus
              (c.installmentsList.map (toggleInstallment installmentNumber)) today
            lastUpdated := some now } : Client).id = clientId := hid
      rw [toggleClient_of_eq hid2] at hc3
      rw [hc3] at hjb
      simp only [List.map_map] at hjb
      rw [List.getElem?_map, hja, Option.map_some'] at hjb
      have hb : b = toggleInstallment installmentNumber (toggleInstallment installmentNumber a) :=
        (Option.some.inj hjb).symm
      rw [hb]
      exact toggleInstallment_isPaid_twice installmentNumber a
    · rw [toggleClient_of_ne hid, toggleClient_of_ne hid] at hc3
      rw [hc3] at hjb
      rw [hja] at hjb
      rw [Option.some.inj hjb]

/-- The record obtained from `notifClient` by toggling installment 1 twice
at today = 10, now = 99: all `isPaid` flags are back to their original
values, only `status` and `lastUpdated` were recomputed. -/
def notifClientTwice : Client :=
  { notifClient with status := Status.Late, lastUpdated := some 99 }

/-- C10, witness: toggling installment 1 of the matching client twice at
today = 10, now = 99 brings every `isPaid` flag back (the double-toggled
record only differs in recomputed `status` and `lastUpdated`); instantiated
from the double-toggle clause of `c10_toggle_frame` at index 0. -/
theorem c10_witness :
    (handleTogglePayment (handleTogglePayment [notifClient] (some ("n")) 1 10 99)
          (some ("n")) 1 10 99)[0]?
        = some notifClientTwice
    ∧ notifClientTwice.installmentsList[0]? = some ⟨1, 10, 50, false⟩
    ∧ ((⟨1, 10, 50, false⟩ : Installment).isPaid
        = (⟨1, 10, 50, false⟩ : Installment).isPaid) := by
  refine ⟨by decide, by decide, ?_⟩
  exact (c10_toggle_frame [notifClient] (some ("n")) 1 10 99).2.2 0 notifClient
    notifClientTwice (by decide) (by decide)
    0 ⟨1, 10, 50, false⟩ ⟨1, 10, 50, false⟩ (by decide) (by decide)

theorem progressionLoop_length (clients : List Client) (n : ℕ) :
    (progressionLoop clients n).length = n := by
  induction n with
  | zero => rfl
  | succ n ih => simp [progressionLoop, ih]

theorem progressionLoop_getElem (clients : List Client) :
    ∀ n i, i < n → (progressionLoop clients n)[i]?
      = some (nextPoint clients (progressionLoop clients i) (i + 1)) := by
  intro n
  induction n with
  | zero => intro i h; omega
  | succ n ih =>
      intro i h
      rw [progressionLoop]
      rw [List.getElem?_append]
      by_cases hi : i < n
      · rw [if_pos (by rw [progressionLoop_length]; exact hi)]
        exact ih i hi
      · have hieq : i = n := by omega
        subst hieq
        rw [if_neg (by rw [progressionLoop_length]; omega)]
        simp [progressionLoop_length]

theorem progressionLoop_getLast (clients : List Client) (n : ℕ) :
    (progressionLoop clients (n + 1)).getLast?
      = some (nextPoint clients (progressionLoop clients n) (n + 1)) := by
  rw [progressionLoop]
  exact List.getLast?_concat _

/-- C8.  Amended rounding behaviour of the projection: each period's output
is rounded on emission, and the *rounded* previous outputs are the base for
the next period's accumulation — period 0 emits
`round (contribution 1)` and period i+1 emits
`round (emitted i + contribution (i+2))`, so rounding error can compound
across periods instead of a single rounding of the unrounded cumulative
sum at output. -/
theorem c8_progression_recurrence (clients : List Client) :
    (∀ p : ProgressionPoint, (calculateProgression clients)[0]? = some p →
        p.principal = round (perPeriodPrincipal clients 1)
        ∧ p.interest = round (perPeriodInterest clients 1)
        ∧ p.total = round (perPeriodPrincipal clients 1 + perPeriodInterest clients 1))
    ∧ (∀ (i : ℕ) (p q : ProgressionPoint),
        (calculateProgression clients)[i]? = some p →
        (calculateProgression clients)[i + 1]? = some q →
        q.principal = round ((p.principal : ℚ) + perPeriodPrincipal clients (i + 2))
        ∧ q.interest = round ((p.interest : ℚ) + perPeriodInterest clients (i + 2))
        ∧ q.total = round ((p.principal : ℚ) + perPeriodPrincipal clients (i + 2)
              + (p.interest : ℚ) + perPeriodInterest clients (i + 2))) := by
  constructor
  · intro p hp
    have hlt : 0 < horizon clients := by
      by_contra hcon
      have h0 : horizon clients = 0 := by omega
      rw [calculateProgression, h0] at hp
      simp [progressionLoop] at hp
    rw [calculateProgression, progressionLoop_getElem clients _ 0 hlt] at hp
    have hp2 := Option.some.inj hp
    rw [← hp2]
    simp only [nextPoint, progressionLoop, List.getLast?_nil]
    norm_num
  · intro i p q hp hq
    have hlt : i + 1 < horizon clients := by
      obtain ⟨hlen, hv⟩ := List.getElem?_eq_some.mp hq
      rwa [calculateProgression, progressionLoop_length] at hlen
    rw [calculateProgression, progressionLoop_getElem clients _ (i + 1) hlt] at hq
    rw [calculateProgression, progressionLoop_getElem clients _ i (by omega)] at hp
    have hq2 := Option.some.inj hq
    have hlast : (progressionLoop clients (i + 1)).getLast? = some p := by
      rw [progressionLoop_getLast, Option.some.inj hp]
    rw [← hq2]
    simp only [nextPoint, hlast]
    norm_num

/-- Fixture for the projection theorems: principal 1 over 2 installments at
0% interest, so each period contributes exactly 1/2 to principal recovery
(1/2 is exactly representable as a binary double, and so are all the sums
below, hence the JS float arithmetic agrees with `ℚ` here). -/
def progClientEx : Client :=
  { mkClient (some ("p")) ("Paula") (some 1) (some false) with
      principal := 1
      installments := 2
      interestRate := 0 }

theorem progClientEx_perPrincipal_1 : perPeriodPrincipal [progClientEx] 1 = 1 / 2 := by
  simp [perPeriodPrincipal, progClientEx, mkClient]

theorem progClientEx_perPrincipal_2 : perPeriodPrincipal [progClientEx] 2 = 1 / 2 := by
  simp [perPeriodPrincipal, progClientEx, mkClient]

theorem progClientEx_perInterest_1 : perPeriodInterest [progClientEx] 1 = 0 := by
  simp [perPeriodInterest, progClientEx, mkClient]

theorem progClientEx_perInterest_2 : perPeriodInterest [progClientEx] 2 = 0 := by
  simp [perPeriodInterest, progClientEx, mkClient]

theorem progClientEx_horizon : horizon [progClientEx] = 2 := by
  simp [horizon, progClientEx, mkClient]

theorem progClientEx_loop_1 :
    progressionLoop [progClientEx] 1 = [⟨"Mês " ++ toString 1, 1, 0, 1⟩] := by
  rw [progressionLoop, progressionLoop]
  simp only [nextPoint, List.getLast?_nil, List.nil_append]
  norm_num [round_eq, progClientEx_perPrincipal_1, progClientEx_perInterest_1]

theorem progClientEx_loop_2 :
    progressionLoop [progClientEx] 2
      = [⟨"Mês " ++ toString 1, 1, 0, 1⟩, ⟨"Mês " ++ toString 2, 2, 0, 2⟩] := by
  rw [progressionLoop, progClientEx_loop_1]
  simp only [nextPoint]
  norm_num [round_eq, progClientEx_perPrincipal_2, progClientEx_perInterest_2]

theorem progClientEx_progression :
    calculateProgression [progClientEx]
      = [⟨"Mês " ++ toString 1, 1, 0, 1⟩, ⟨"Mês " ++ toString 2, 2, 0, 2⟩] := by
  rw [calculateProgression, progClientEx_horizon, progClientEx_loop_2]

/-- C8, counterexample to the claim as stated: for a single record with
principal 1 over 2 installments at 0% interest the code emits cumulative
principal 2 at period 2 (it rounds 1/2 up to 1 at period 1 and then rounds
1 + 1/2 up to 2), while the unrounded cumulative sum 1/2 + 1/2 = 1 rounded
once at output is 1. -/
theorem c8_counterexample :
    ((calculateProgression [progClientEx])[1]?).map ProgressionPoint.principal = some 2
    ∧ round (unroundedCumulativePrincipal [progClientEx] 2) = (1 : ℤ)
    ∧ ((calculateProgression [progClientEx])[1]?).map ProgressionPoint.principal
        ≠ some (round (unroundedCumulativePrincipal [progClientEx] 2)) := by
  have h1 : ((calculateProgression [progClientEx])[1]?).map ProgressionPoint.principal
      = some 2 := by
    rw [progClientEx_progression]
    rfl
  have h2 : round (unroundedCumulativePrincipal [progClientEx] 2) = (1 : ℤ) := by
    have : unroundedCumulativePrincipal [progClientEx] 2 = 1 := by
      rw [unroundedCumulativePrincipal]
      rw [show List.range 2 = [0, 1] from rfl]
      simp only [List.foldl_cons, List.foldl_nil, zero_add]
      rw [progClientEx_perPrincipal_1, progClientEx_perPrincipal_2]
      norm_num
    rw [this]
    norm_num [round_eq]
  refine ⟨h1, h2, ?_⟩
  rw [h1, h2]
  decide

/-- C8, witness: instance of the first clause of `c8_progression_recurrence`
at the fixture record - the period-1 output is `round` of the period-1
contribution. -/
theorem c8_witness :
    ((calculateProgression [progClientEx])[0]? = some ⟨"Mês " ++ toString 1, 1, 0, 1⟩)
    ∧ (⟨"Mês " ++ toString 1, 1, 0, 1⟩ : ProgressionPoint).principal
        = round (perPeriodPrincipal [progClientEx] 1) := by
  have h0 : (calculateProgression [progClientEx])[0]?
      = some ⟨"Mês " ++ toString 1, 1, 0, 1⟩ := by
    rw [progClientEx_progression]
    rfl
  exact ⟨h0, ((c8_progression_recurrence [progClientEx]).1 _ h0).1⟩
